import Mathlib

/-!
Verification of the parsing core of the Agora cost-model language
(`lang/src/parser.rs`).

The development shallowly embeds the parser into Lean:

* The AST types (`LinearExpression`, `Condition`, `Predicate`, `Statement`,
  `Document`, the operator enumerations and the `TopLevelQueryItem`
  projection) come from the crate's `expressions`/`language` modules, whose
  shapes are fixed by the data model of the specification.
* The `nom` combinators the parser uses (`tag`, `take_while1`, `opt`, `alt`,
  `many0`, `preceded`, `terminated`, `tuple`, `recognize`) are embedded as
  total functions `List Char → Option (List Char × α)`, with `none` playing
  the role of `Err::Error`.  `many0` carries explicit fuel (one unit per
  iteration; the Rust loop performs at most `input.len()` iterations because
  every successful step consumes input, and nom's own `Many0` guard turns a
  non-consuming step into an error, which the embedding mirrors).
* The recursive grammar entry points (`linear_expression`, `condition`,
  and the parsers built from them) take a fuel parameter bounding the
  parenthesis-nesting depth; the Rust originals recurse without a bound, and
  any input of length `n` nests at most `n` deep, so fuel `n + 1` makes the
  embedding agree with the source on every input.
* The external `graphql_parser::consume_query` function (a separate crate,
  outside this repository) is abstracted as a parameter producing a
  `GqlDefinition`, the shape of its result that `graphql_query` consumes.
-/

/-- Arithmetic operators (`AnyLinearOperator` in the source). -/
inductive AnyLinearOperator : Type where
  | Add
  | Sub
  | Mul
  | Div
deriving DecidableEq

/-- Comparison operators (`AnyComparison` in the source).  The constructors
mirror the `Eq`, `Ne`, `Ge`, `Le`, `Gt`, `Lt` operator structs. -/
inductive AnyComparison : Type where
  | Eq
  | Ne
  | Ge
  | Le
  | Gt
  | Lt
deriving DecidableEq

/-- Boolean connectives (`AnyBooleanOp` in the source: `Or`, `And`). -/
inductive AnyBooleanOp : Type where
  | Or
  | And
deriving DecidableEq

/-- Arithmetic AST (`LinearExpression` in `expressions`): integer constant
(arbitrary precision `BigInt`, embedded as `Int`), integer-typed variable, or
binary node `BinaryExpression { lhs, op, rhs }` (flattened into fields). -/
inductive LinearExpression : Type where
  | Const (value : Int)
  | Variable (name : String)
  | BinaryExpression (lhs : LinearExpression) (op : AnyLinearOperator) (rhs : LinearExpression)
deriving DecidableEq

/-- Boolean condition AST (`Condition` in `expressions`), with the
`BinaryExpression` payloads flattened into fields. -/
inductive Condition : Type where
  | Comparison (lhs : LinearExpression) (op : AnyComparison) (rhs : LinearExpression)
  | Variable (name : String)
  | Const (value : Bool)
  | Boolean (lhs : Condition) (op : AnyBooleanOp) (rhs : Condition)
deriving DecidableEq

/-- The loop body of `collapse_tree` (`parser.rs` lines 186-212), written as
recursion over the not-yet-scanned pairs `rest`, carrying the mutable locals
`first` and `remain`.  `remain.pop()` is `getLast?`/`dropLast`, `push` is an
append at the tail, exactly as a Rust `Vec`. -/
def collapse_go (kind : AnyLinearOperator) (first : LinearExpression)
    (remain : List (AnyLinearOperator × LinearExpression)) :
    List (AnyLinearOperator × LinearExpression) →
      LinearExpression × List (AnyLinearOperator × LinearExpression)
  | [] => (first, remain)
  | (op, expr) :: rest =>
    if kind = op then
      match remain.getLast? with
      | some (before, last) =>
          collapse_go kind first
            (remain.dropLast ++ [(before, LinearExpression.BinaryExpression last op expr)]) rest
      | none =>
          collapse_go kind (LinearExpression.BinaryExpression first op expr) remain rest
    else
      collapse_go kind first (remain ++ [(op, expr)]) rest

/-- `collapse_tree(first, rest, kind)` from the source: scan `rest` once,
joining the pairs whose operator equals `kind` and keeping the others. -/
def collapse_tree (first : LinearExpression)
    (rest : List (AnyLinearOperator × LinearExpression)) (kind : AnyLinearOperator) :
    LinearExpression × List (AnyLinearOperator × LinearExpression) :=
  collapse_go kind first [] rest

/-- The four regrouping passes of `linear_expression`
(`parser.rs` lines 214-217), in the fixed source order `Mul, Div, Add, Sub`. -/
def linear_regroup (first : LinearExpression)
    (ops : List (AnyLinearOperator × LinearExpression)) :
    LinearExpression × List (AnyLinearOperator × LinearExpression) :=
  let s1 := collapse_tree first ops AnyLinearOperator.Mul
  let s2 := collapse_tree s1.1 s1.2 AnyLinearOperator.Div
  let s3 := collapse_tree s2.1 s2.2 AnyLinearOperator.Add
  let s4 := collapse_tree s3.1 s3.2 AnyLinearOperator.Sub
  s4

/-- Pass order of an operator: the index of its `collapse_tree` pass. -/
def opRank : AnyLinearOperator → Nat
  | AnyLinearOperator.Mul => 0
  | AnyLinearOperator.Div => 1
  | AnyLinearOperator.Add => 2
  | AnyLinearOperator.Sub => 3

/-- Rank of the topmost node of an expression: leaves rank `0`, a binary node
one more than its operator's pass index. -/
def rankTop : LinearExpression → Nat
  | LinearExpression.BinaryExpression _ op _ => opRank op + 1
  | _ => 0

/-- Precedence-correct shape: at every binary node the left subtree's top rank
is at most one above the node's operator rank (same-operator chains may
continue on the left) and the right subtree's top rank is strictly below it
(so a node never has a right child built by the same or a later pass; in
particular runs of one operator lean left, and no `Add`/`Sub` node sits below
a `Mul`/`Div` node). -/
def collapsedB : LinearExpression → Bool
  | LinearExpression.Const _ => true
  | LinearExpression.Variable _ => true
  | LinearExpression.BinaryExpression l op r =>
      collapsedB l && collapsedB r &&
        decide (rankTop l ≤ opRank op + 1) && decide (rankTop r ≤ opRank op)

lemma getLast?_spec {α : Type _} {l : List α} {a : α} (h : l.getLast? = some a) :
    a ∈ l ∧ l.dropLast ++ [a] = l := by
  induction l with
  | nil => simp at h
  | cons x xs ih =>
    cases xs with
    | nil =>
      simp [List.getLast?] at h
      simp [h]
    | cons y ys =>
      have h' : (y :: ys).getLast? = some a := by
        simpa [List.getLast?_cons_cons] using h
      obtain ⟨hmem, heq⟩ := ih h'
      refine ⟨List.mem_cons_of_mem _ hmem, ?_⟩
      simpa [List.dropLast_cons_of_ne_nil] using congrArg (List.cons x) heq

lemma getLast?_eq_none_iff {α : Type _} (l : List α) : l.getLast? = none ↔ l = [] := by
  induction l with
  | nil => simp
  | cons x xs ih =>
    cases xs with
    | nil => simp [List.getLast?]
    | cons y ys => simp [List.getLast?_cons_cons, ih]

lemma collapse_go_nil (kind : AnyLinearOperator) (first : LinearExpression)
    (remain : List (AnyLinearOperator × LinearExpression)) :
    collapse_go kind first remain [] = (first, remain) := rfl

lemma collapse_go_cons_first (kind : AnyLinearOperator) (first : LinearExpression)
    (remain rest : List (AnyLinearOperator × LinearExpression))
    (op : AnyLinearOperator) (expr : LinearExpression)
    (hop : kind = op) (hl : remain.getLast? = none) :
    collapse_go kind first remain ((op, expr) :: rest) =
      collapse_go kind (LinearExpression.BinaryExpression first op expr) remain rest := by
  subst hop
  rw [collapse_go, if_pos rfl, hl]

lemma collapse_go_cons_join (kind : AnyLinearOperator) (first : LinearExpression)
    (remain rest : List (AnyLinearOperator × LinearExpression))
    (op before : AnyLinearOperator) (expr last : LinearExpression)
    (hop : kind = op) (hl : remain.getLast? = some (before, last)) :
    collapse_go kind first remain ((op, expr) :: rest) =
      collapse_go kind first
        (remain.dropLast ++ [(before, LinearExpression.BinaryExpression last op expr)]) rest := by
  subst hop
  rw [collapse_go, if_pos rfl, hl]

lemma collapse_go_cons_keep (kind : AnyLinearOperator) (first : LinearExpression)
    (remain rest : List (AnyLinearOperator × LinearExpression))
    (op : AnyLinearOperator) (expr : LinearExpression) (hop : kind ≠ op) :
    collapse_go kind first remain ((op, expr) :: rest) =
      collapse_go kind first (remain ++ [(op, expr)]) rest := by
  rw [collapse_go, if_neg hop]

/-- The operators kept by one `collapse_tree` pass are exactly the input
operators different from `kind`, in order (the pass rewrites only the
expression component of the retained pairs). -/
lemma collapse_go_map_fst (kind : AnyLinearOperator) (first : LinearExpression)
    (remain rest : List (AnyLinearOperator × LinearExpression)) :
    (collapse_go kind first remain rest).2.map Prod.fst =
      remain.map Prod.fst ++
        (rest.map Prod.fst).filter (fun o => decide (o ≠ kind)) := by
  induction rest generalizing first remain with
  | nil => simp [collapse_go_nil]
  | cons p rest ih =>
    obtain ⟨op, expr⟩ := p
    by_cases hk : kind = op
    · subst hk
      cases hl : remain.getLast? with
      | none =>
        rw [collapse_go_cons_first kind first remain rest kind expr rfl hl, ih]
        simp
      | some q =>
        obtain ⟨before, last⟩ := q
        rw [collapse_go_cons_join kind first remain rest kind before expr last rfl hl, ih]
        have h2 := (getLast?_spec hl).2
        have hmapfst :
            (remain.dropLast ++
              [(before, LinearExpression.BinaryExpression last kind expr)]).map Prod.fst =
              remain.map Prod.fst := by
          conv_rhs => rw [← h2]
          simp
        rw [hmapfst]
        simp
    · rw [collapse_go_cons_keep kind first remain rest op expr hk, ih]
      have hne : ¬ op = kind := fun h => hk h.symm
      simp [hne]

lemma opRank_injective : ∀ a b : AnyLinearOperator, opRank a = opRank b → a = b := by
  intro a b h
  cases a <;> cases b <;> first | rfl | (exfalso; simp [opRank] at h)

/-- Invariant carried through one `collapse_tree` pass: the leading expression
and every retained expression stay precedence-correct with top rank at most
one above the pass's rank, and every retained operator belongs to a strictly
later pass. -/
lemma collapse_go_inv (kind : AnyLinearOperator) (first : LinearExpression)
    (remain rest : List (AnyLinearOperator × LinearExpression))
    (hf1 : collapsedB first = true) (hf2 : rankTop first ≤ opRank kind + 1)
    (hrem : ∀ p ∈ remain,
      opRank kind < opRank p.1 ∧ collapsedB p.2 = true ∧ rankTop p.2 ≤ opRank kind + 1)
    (hrest : ∀ p ∈ rest,
      opRank kind ≤ opRank p.1 ∧ collapsedB p.2 = true ∧ rankTop p.2 ≤ opRank kind) :
    (collapsedB (collapse_go kind first remain rest).1 = true ∧
      rankTop (collapse_go kind first remain rest).1 ≤ opRank kind + 1) ∧
    ∀ p ∈ (collapse_go kind first remain rest).2,
      opRank kind < opRank p.1 ∧ collapsedB p.2 = true ∧ rankTop p.2 ≤ opRank kind + 1 := by
  induction rest generalizing first remain with
  | nil =>
    rw [collapse_go_nil]
    exact ⟨⟨hf1, hf2⟩, hrem⟩
  | cons p rest ih =>
    obtain ⟨op, expr⟩ := p
    obtain ⟨hople, hexprc, hexprr⟩ := hrest (op, expr) (List.mem_cons_self _ _)
    have hrest' : ∀ p ∈ rest,
        opRank kind ≤ opRank p.1 ∧ collapsedB p.2 = true ∧ rankTop p.2 ≤ opRank kind :=
      fun p hp => hrest p (List.mem_cons_of_mem _ hp)
    by_cases hk : kind = op
    · subst hk
      cases hl : remain.getLast? with
      | none =>
        rw [collapse_go_cons_first kind first remain rest kind expr rfl hl]
        apply ih
        · simp only [collapsedB, Bool.and_eq_true, decide_eq_true_eq]
          exact ⟨⟨⟨hf1, hexprc⟩, hf2⟩, hexprr⟩
        · simp [rankTop]
        · exact hrem
        · exact hrest'
      | some q =>
        obtain ⟨before, last⟩ := q
        rw [collapse_go_cons_join kind first remain rest kind before expr last rfl hl]
        apply ih _ _ hf1 hf2 _ hrest'
        intro p hp
        rcases List.mem_append.mp hp with hp | hp
        · exact hrem p (List.Sublist.mem hp (List.dropLast_sublist remain))
        · have hpe : p = (before, LinearExpression.BinaryExpression last kind expr) := by
            simpa using hp
          subst hpe
          obtain ⟨hb1, hb2, hb3⟩ := hrem (before, last) (getLast?_spec hl).1
          refine ⟨hb1, ?_, ?_⟩
          · simp only [collapsedB, Bool.and_eq_true, decide_eq_true_eq]
            exact ⟨⟨⟨hb2, hexprc⟩, hb3⟩, hexprr⟩
          · simp [rankTop]
    · rw [collapse_go_cons_keep kind first remain rest op expr hk]
      apply ih _ _ hf1 hf2 _ hrest'
      intro p hp
      rcases List.mem_append.mp hp with hp | hp
      · exact hrem p hp
      · have hpe : p = (op, expr) := by simpa using hp
        subst hpe
        have hne : opRank kind ≠ opRank op := fun h => hk (opRank_injective _ _ h)
        exact ⟨lt_of_le_of_ne hople hne, hexprc, le_trans hexprr (Nat.le_succ _)⟩

/-- A pass over pairs that all carry the pass's own operator is exactly a left
fold, and leaves nothing pending. -/
lemma collapse_go_all_match (kind : AnyLinearOperator) (first : LinearExpression)
    (rest : List (AnyLinearOperator × LinearExpression)) (h : ∀ p ∈ rest, p.1 = kind) :
    collapse_go kind first [] rest =
      (rest.foldl (fun acc p => LinearExpression.BinaryExpression acc p.1 p.2) first, []) := by
  induction rest generalizing first with
  | nil => rfl
  | cons p rest ih =>
    obtain ⟨op, expr⟩ := p
    have hop : op = kind := h _ (List.mem_cons_self _ _)
    subst hop
    rw [collapse_go_cons_first op first [] rest op expr rfl rfl]
    rw [ih _ (fun p hp => h p (List.mem_cons_of_mem _ hp))]
    simp

/-- A pass over pairs none of which carry the pass's operator only moves the
pairs from the input to the pending list, unchanged. -/
lemma collapse_go_none_match (kind : AnyLinearOperator) (first : LinearExpression)
    (remain rest : List (AnyLinearOperator × LinearExpression))
    (h : ∀ p ∈ rest, p.1 ≠ kind) :
    collapse_go kind first remain rest = (first, remain ++ rest) := by
  induction rest generalizing remain with
  | nil => simp [collapse_go_nil]
  | cons p rest ih =>
    obtain ⟨op, expr⟩ := p
    have hop : op ≠ kind := h _ (List.mem_cons_self _ _)
    rw [collapse_go_cons_keep kind first remain rest op expr (fun hh => hop hh.symm)]
    rw [ih _ (fun p hp => h p (List.mem_cons_of_mem _ hp))]
    simp

lemma filter_four_ops (l : List AnyLinearOperator) :
    ((((l.filter (fun o => decide (o ≠ AnyLinearOperator.Mul))).filter
        (fun o => decide (o ≠ AnyLinearOperator.Div))).filter
        (fun o => decide (o ≠ AnyLinearOperator.Add))).filter
        (fun o => decide (o ≠ AnyLinearOperator.Sub))) = [] := by
  induction l with
  | nil => rfl
  | cons a t ih => cases a <;> simpa using ih

/-- State of the regrouping between passes: everything built so far is
precedence-correct with top rank at most `k`, and all pending operators
belong to pass `k` or later. -/
def StageInv (k : Nat)
    (st : LinearExpression × List (AnyLinearOperator × LinearExpression)) : Prop :=
  collapsedB st.1 = true ∧ rankTop st.1 ≤ k ∧
    ∀ p ∈ st.2, k ≤ opRank p.1 ∧ collapsedB p.2 = true ∧ rankTop p.2 ≤ k

lemma collapse_tree_stage (kind : AnyLinearOperator)
    (st : LinearExpression × List (AnyLinearOperator × LinearExpression))
    (h : StageInv (opRank kind) st) :
    StageInv (opRank kind + 1) (collapse_tree st.1 st.2 kind) := by
  obtain ⟨h1, h2, h3⟩ := h
  have key := collapse_go_inv kind st.1 [] st.2 h1 (le_trans h2 (Nat.le_succ _))
    (by simp) h3
  exact ⟨key.1.1, key.1.2, fun p hp => (key.2 p hp)⟩

/-- After the four passes the surviving expression is precedence-correct. -/
lemma linear_regroup_collapsed (first : LinearExpression)
    (ops : List (AnyLinearOperator × LinearExpression))
    (h : StageInv 0 (first, ops)) :
    collapsedB (linear_regroup first ops).1 = true := by
  have s1 := collapse_tree_stage AnyLinearOperator.Mul (first, ops) h
  have s2 := collapse_tree_stage AnyLinearOperator.Div _ s1
  have s3 := collapse_tree_stage AnyLinearOperator.Add _ s2
  have s4 := collapse_tree_stage AnyLinearOperator.Sub _ s3
  exact s4.1

/-- A run of a single operator kind regroups to the plain left fold. -/
lemma linear_regroup_uniform (first : LinearExpression)
    (ops : List (AnyLinearOperator × LinearExpression)) (k : AnyLinearOperator)
    (h : ∀ p ∈ ops, p.1 = k) :
    linear_regroup first ops =
      (ops.foldl (fun acc p => LinearExpression.BinaryExpression acc p.1 p.2) first, []) := by
  have hpass : ∀ kind, kind ≠ k →
      collapse_tree first ops kind = (first, ops) := by
    intro kind hne
    have := collapse_go_none_match kind first [] ops
      (fun p hp => by rw [h p hp]; exact fun hh => hne hh.symm)
    simpa [collapse_tree] using this
  have hmatch : collapse_tree first ops k =
      (ops.foldl (fun acc p => LinearExpression.BinaryExpression acc p.1 p.2) first, []) :=
    collapse_go_all_match k first ops h
  have hnil : ∀ f kind, collapse_tree f ([] :
      List (AnyLinearOperator × LinearExpression)) kind = (f, []) := fun f kind => rfl
  cases k with
  | Mul =>
    simp only [linear_regroup, hmatch, hnil]
  | Div =>
    simp only [linear_regroup, hpass AnyLinearOperator.Mul (by simp), hmatch, hnil]
  | Add =>
    simp only [linear_regroup, hpass AnyLinearOperator.Mul (by simp),
      hpass AnyLinearOperator.Div (by simp), hmatch, hnil]
  | Sub =>
    simp only [linear_regroup, hpass AnyLinearOperator.Mul (by simp),
      hpass AnyLinearOperator.Div (by simp), hpass AnyLinearOperator.Add (by simp), hmatch]

/-- C7: for every flat operand list handed to the regrouping passes of
`linear_expression` (any leading expression and any list of
(operator, expression) pairs over the four arithmetic operators), the pending
list left after the passes `Mul`, `Div`, `Add`, `Sub` is empty, so the
`assert_eq!(ops.len(), 0)` at the end of `linear_expression` never fires. -/
theorem C7_no_pending_after_regroup (first : LinearExpression)
    (ops : List (AnyLinearOperator × LinearExpression)) :
    (linear_regroup first ops).2 = [] := by
  have h1 : (collapse_tree first ops AnyLinearOperator.Mul).2.map Prod.fst
      = (ops.map Prod.fst).filter (fun o => decide (o ≠ AnyLinearOperator.Mul)) := by
    simpa using collapse_go_map_fst AnyLinearOperator.Mul first [] ops
  set st1 := collapse_tree first ops AnyLinearOperator.Mul with hst1
  have h2 : (collapse_tree st1.1 st1.2 AnyLinearOperator.Div).2.map Prod.fst
      = (st1.2.map Prod.fst).filter (fun o => decide (o ≠ AnyLinearOperator.Div)) := by
    simpa using collapse_go_map_fst AnyLinearOperator.Div st1.1 [] st1.2
  set st2 := collapse_tree st1.1 st1.2 AnyLinearOperator.Div with hst2
  have h3 : (collapse_tree st2.1 st2.2 AnyLinearOperator.Add).2.map Prod.fst
      = (st2.2.map Prod.fst).filter (fun o => decide (o ≠ AnyLinearOperator.Add)) := by
    simpa using collapse_go_map_fst AnyLinearOperator.Add st2.1 [] st2.2
  set st3 := collapse_tree st2.1 st2.2 AnyLinearOperator.Add with hst3
  have h4 : (collapse_tree st3.1 st3.2 AnyLinearOperator.Sub).2.map Prod.fst
      = (st3.2.map Prod.fst).filter (fun o => decide (o ≠ AnyLinearOperator.Sub)) := by
    simpa using collapse_go_map_fst AnyLinearOperator.Sub st3.1 [] st3.2
  have hchain : (linear_regroup first ops).2.map Prod.fst =
      ((((ops.map Prod.fst).filter (fun o => decide (o ≠ AnyLinearOperator.Mul))).filter
        (fun o => decide (o ≠ AnyLinearOperator.Div))).filter
        (fun o => decide (o ≠ AnyLinearOperator.Add))).filter
        (fun o => decide (o ≠ AnyLinearOperator.Sub)) := by
    show (collapse_tree st3.1 st3.2 AnyLinearOperator.Sub).2.map Prod.fst = _
    rw [h4, h3, h2, h1]
  rw [filter_four_ops] at hchain
  exact List.map_eq_nil_iff.mp hchain

/-- Parser input: the remaining characters of the source string. -/
abbrev Input := List Char

/-- A nom parser `Fn(&str) -> IResult<&str, A>`: `some (rest, value)` on
success, `none` for `Err::Error`. -/
abbrev P (α : Type) : Type := Input → Option (Input × α)

/-- Success without consuming. -/
def ppure {α : Type} (a : α) : P α := fun i => some (i, a)

/-- Sequencing: run `p`, feed its value to `f` on the remaining input.
Failure of either side fails the whole, as with `?` on an `IResult`. -/
def pbind {α β : Type} (p : P α) (f : α → P β) : P β := fun i =>
  match p i with
  | none => none
  | some (i1, a) => f a i1

/-- nom's `map`. -/
def pmap {α β : Type} (p : P α) (g : α → β) : P β :=
  pbind p (fun a => ppure (g a))

/-- nom's `alt` for two alternatives: try `p`, on `Err::Error` try `q` on the
same input. -/
def alt2 {α : Type} (p q : P α) : P α := fun i =>
  match p i with
  | some r => some r
  | none => q i

def alt3 {α : Type} (p q r : P α) : P α := alt2 p (alt2 q r)

def alt4 {α : Type} (p q r s : P α) : P α := alt2 p (alt2 q (alt2 r s))

/-- nom's `opt`: never fails; `none` value when `p` failed. -/
def opt {α : Type} (p : P α) : P (Option α) := alt2 (pmap p some) (ppure none)

/-- nom's `tag`: match the literal `t` as a prefix and consume it. -/
def tag (t : List Char) : P (List Char) := fun i =>
  if t.isPrefixOf i then some (i.drop t.length, t) else none

/-- nom's `take_while1`: the longest (possibly shorter input-limited) prefix
of characters satisfying `f`, failing when it is empty. -/
def take_while1 (f : Char → Bool) : P (List Char) := fun i =>
  if i.takeWhile f = [] then none else some (i.dropWhile f, i.takeWhile f)

/-- `whitespace` from the source: one or more of space, tab, CR, LF. -/
def whitespace : P (List Char) :=
  take_while1 (fun c => c == ' ' || c == '\t' || c == '\r' || c == '\n')

def digit1 : P (List Char) := take_while1 Char.isDigit

def alpha1 : P (List Char) := take_while1 Char.isAlpha

def alphanumeric1 : P (List Char) := take_while1 Char.isAlphanum

/-- nom's `tuple` for a pair of parsers. -/
def tuple2 {α β : Type} (p : P α) (q : P β) : P (α × β) :=
  pbind p fun a => pmap q fun b => (a, b)

def preceded {α β : Type} (p : P α) (q : P β) : P β := pbind p fun _ => q

def terminated {α β : Type} (p : P α) (q : P β) : P α :=
  pbind p fun a => pmap q fun _ => a

/-- `surrounded_by(outer, inner)` from the source (lines 117-131): outer,
then inner, then outer again, keeping inner's value. -/
def surrounded_by {α β : Type} (outer : P α) (inner : P β) : P β :=
  pbind outer fun _ => pbind inner fun r => pmap outer fun _ => r

/-- `parenthesized(inner)` from the source (lines 144-152). -/
def parenthesized {α : Type} (inner : P α) : P α :=
  preceded (tuple2 (tag ['(']) (opt whitespace))
    (terminated inner (tuple2 (opt whitespace) (tag [')'])))

/-- nom's `recognize`: run `p` and return the consumed slice instead of its
value (computed here from the length difference, since every embedded parser
returns a suffix of its input). -/
def recognize {α : Type} (p : P α) : P (List Char) := fun i =>
  match p i with
  | none => none
  | some (r, _) => some (r, i.take (i.length - r.length))

/-- nom's `many0` loop with explicit fuel (one unit per iteration).  A
successful inner parse that consumes nothing reproduces nom's `Many0`
infinite-loop guard and fails. -/
def many0F {α : Type} (p : P α) : Nat → P (List α)
  | 0 => fun _ => none
  | fuel + 1 => fun i =>
    match p i with
    | none => some (i, [])
    | some (i1, a) =>
      if i1 = i then none
      else
        match many0F p fuel i1 with
        | none => none
        | some (r, tail) => some (r, a :: tail)

/-- nom's `many0`: the loop runs at most `input.length` times because every
iteration consumes at least one character, so fuel `length + 1` is exact. -/
def many0 {α : Type} (p : P α) : P (List α) := fun i => many0F p (i.length + 1) i

/-- `const_bool` from the source. -/
def const_bool : P Bool :=
  alt2 (pmap (tag "true".toList) (fun _ => true))
       (pmap (tag "false".toList) (fun _ => false))

/-- Value of a digit run, most significant first. -/
def digitsVal (s : List Char) : Nat := s.foldl (fun acc c => acc * 10 + (c.toNat - 48)) 0

/-- Modelled from the spec: `str::parse::<BigInt>` (num-bigint crate, outside
this repository) applied to the slice matched by `digit1` — it succeeds on
exactly the non-empty all-digit strings, yielding their decimal value. -/
def parseBigInt (s : List Char) : Option Int :=
  if s ≠ [] ∧ s.all Char.isDigit then some (digitsVal s : Int) else none

/-- `int` from the source (lines 133-142): optional `-`, a digit run, parse
it (`unwrap` modelled as failure — `int_never_panics` below shows the branch
is unreachable), negate when the minus was present. -/
def int : P Int :=
  pbind (opt (tag ['-'])) fun neg =>
  pbind digit1 fun nums => fun i =>
    match parseBigInt nums with
    | none => none
    | some v => some (i, if neg.isSome then v * (-1) else v)

/-- `true` exactly when the `unwrap` inside `int` would be reached with a
slice that `BigInt` parsing rejects, i.e. when `int` would panic. -/
def intPanics (i : Input) : Bool :=
  match (pbind (opt (tag ['-'])) fun _ => digit1) i with
  | some (_, nums) => (parseBigInt nums).isNone
  | none => false

/-- `variable` from the source (lines 106-115): `recognize` of `$`, one
alpha run or `_`, then any runs of alphanumerics or `_`.  (The name slice,
`$` included, is what `Variable::new` receives.) -/
def variable_ : P (List Char) :=
  recognize (tuple2 (tag ['$'])
    (tuple2 (alt2 alpha1 (tag ['_']))
      (many0 (alt2 alphanumeric1 (tag ['_'])))))

/-- `binary_operator` from the source (lines 223-226). -/
def binary_operator {α : Type} (t : List Char) (op : α) : P α :=
  pmap (tag t) (fun _ => op)

/-- `any_linear_binary_operator`, alternatives in source order `+ - * /`. -/
def any_linear_binary_operator : P AnyLinearOperator :=
  alt4 (binary_operator ['+'] AnyLinearOperator.Add)
       (binary_operator ['-'] AnyLinearOperator.Sub)
       (binary_operator ['*'] AnyLinearOperator.Mul)
       (binary_operator ['/'] AnyLinearOperator.Div)

/-- `any_boolean_operator`, alternatives in source order `|| &&`. -/
def any_boolean_operator : P AnyBooleanOp :=
  alt2 (binary_operator ['|', '|'] AnyBooleanOp.Or)
       (binary_operator ['&', '&'] AnyBooleanOp.And)

/-- The comparison-operator alternative inside `comparison`
(lines 92-99), in source order `== != >= <= > <`. -/
def any_comparison_operator : P AnyComparison :=
  alt2 (binary_operator ['=', '='] AnyComparison.Eq)
  (alt2 (binary_operator ['!', '='] AnyComparison.Ne)
  (alt2 (binary_operator ['>', '='] AnyComparison.Ge)
  (alt2 (binary_operator ['<', '='] AnyComparison.Le)
  (alt2 (binary_operator ['>'] AnyComparison.Gt)
        (binary_operator ['<'] AnyComparison.Lt)))))

/-- `linear_expression_leaf` (lines 155-161), with the recursive call on
`linear_expression` passed in. -/
def linear_expression_leaf (inner : P LinearExpression) : P LinearExpression :=
  alt3 (parenthesized inner)
       (pmap int LinearExpression.Const)
       (pmap variable_ (fun n => LinearExpression.Variable (String.mk n)))

/-- `linear_expression` (lines 179-221): a leaf, then `many0` of
(whitespace-surrounded operator, leaf) pairs, then the four regrouping
passes; the final `assert_eq!(ops.len(), 0)` is modelled as failure on a
non-empty pending list (`C7_no_pending_after_regroup` shows it cannot
happen).  The fuel bounds parenthesis nesting. -/
def linear_expression : Nat → P LinearExpression
  | 0 => fun _ => none
  | f + 1 =>
    pbind (linear_expression_leaf (linear_expression f)) fun first =>
    pbind (many0 (tuple2 (surrounded_by whitespace any_linear_binary_operator)
        (linear_expression_leaf (linear_expression f)))) fun ops =>
    fun i =>
      match linear_regroup first ops with
      | (result, []) => some (i, result)
      | (_, _ :: _) => none

/-- `comparison` (lines 88-104): linear expression, comparison operator with
optional surrounding whitespace, linear expression. -/
def comparison (f : Nat) : P (LinearExpression × AnyComparison × LinearExpression) :=
  pbind (linear_expression f) fun lhs =>
  pbind (surrounded_by (opt whitespace) any_comparison_operator) fun op =>
  pmap (linear_expression f) fun rhs => (lhs, op, rhs)

/-- `condition_leaf` (lines 65-72), with the recursive call on `condition`
passed in. -/
def condition_leaf (inner : P Condition) (f : Nat) : P Condition :=
  alt4 (parenthesized inner)
       (pmap (comparison f) (fun c => Condition.Comparison c.1 c.2.1 c.2.2))
       (pmap variable_ (fun n => Condition.Variable (String.mk n)))
       (pmap const_bool Condition.Const)

/-- `condition` (lines 74-86): a leaf, then `many0` of (whitespace-surrounded
boolean operator, leaf) pairs, folded left to right with no regrouping. -/
def condition : Nat → P Condition
  | 0 => fun _ => none
  | f + 1 =>
    pbind (condition_leaf (condition f) (f + 1)) fun first =>
    pmap (many0 (tuple2 (surrounded_by whitespace any_boolean_operator)
        (condition_leaf (condition f) (f + 1)))) fun ops =>
      ops.foldl (fun acc p => Condition.Boolean acc p.1 p.2) first

/-- Modelled from the spec: the shape of an operation returned by the
external graph-query parser (`graphql_parser::consume_query`, a separate
crate) as far as `graphql_query` consumes it — an optional operation name,
the variable definitions, the directives and the top-level selection-set
items.  The element types are parameters, since the adapter never looks
inside them. -/
structure GqlQuery (D S V : Type) where
  name : Option String
  variable_definitions : List V
  directives : List D
  selection_set_items : List S
deriving DecidableEq

/-- Modelled from the spec: the parsed definition is either a *query*
operation or anything else (named fragment, mutation, subscription,
shorthand selection set), which the adapter uniformly rejects. -/
inductive GqlDefinition (D S V : Type) where
  | OperationQuery (query : GqlQuery D S V)
  | OtherDefinition
deriving DecidableEq

/-- `TopLevelQueryItem` from the `language` module: the one structural fact
kept from the embedded query. -/
inductive TopLevelQueryItem (D S : Type) where
  | Selection (s : S)
  | Directive (d : D)
deriving DecidableEq

/-- The checks of `graphql_query` after the external parse (`parser.rs`
lines 23-43): reject non-queries, named queries and variable definitions;
`pop()` both lists (`getLast?`) and keep exactly one popped item. -/
def graphql_adapt {D S V : Type} : GqlDefinition D S V → Option (TopLevelQueryItem D S)
  | GqlDefinition.OperationQuery q =>
    if q.name.isSome then none
    else if q.variable_definitions.length ≠ 0 then none
    else
      match q.directives.getLast?, q.selection_set_items.getLast? with
      | none, some s => some (TopLevelQueryItem.Selection s)
      | some d, none => some (TopLevelQueryItem.Directive d)
      | _, _ => none
  | GqlDefinition.OtherDefinition => none

/-- `graphql_query` (lines 20-44), with the external `consume_query`
abstracted as the parameter `cq` (the string-level element types are fixed
to `String`, which the adapter never inspects). -/
def graphql_query (cq : P (GqlDefinition String String String)) :
    P (TopLevelQueryItem String String) := fun input =>
  match cq input with
  | none => none
  | some (rest, d) =>
    match graphql_adapt d with
    | none => none
    | some item => some (rest, item)

/-- `WhereClause` from the `language` module. -/
structure WhereClause where
  condition : Condition
deriving DecidableEq

/-- `Predicate` from the `language` module. -/
structure Predicate where
  graphql : TopLevelQueryItem String String
  where_clause : Option WhereClause
deriving DecidableEq

/-- `Statement` from the `language` module. -/
structure Statement where
  predicate : Predicate
  cost_expr : LinearExpression
deriving DecidableEq

/-- `Document` from the `language` module. -/
structure Document where
  statements : List Statement
deriving DecidableEq

/-- `where_clause` (lines 54-57). -/
def where_clause (f : Nat) : P WhereClause :=
  pmap (preceded (tuple2 (tag "where".toList) whitespace) (condition f)) WhereClause.mk

/-- `predicate` (lines 228-242). -/
def predicate (cq : P (GqlDefinition String String String)) (f : Nat) : P Predicate :=
  pbind (opt whitespace) fun _ =>
  pbind (graphql_query cq) fun g =>
  pbind (opt whitespace) fun _ =>
  pbind (opt (terminated (where_clause f) whitespace)) fun w =>
  pmap (opt whitespace) fun _ => Predicate.mk g w

/-- `statement` (lines 244-256). -/
def statement (cq : P (GqlDefinition String String String)) (f : Nat) : P Statement :=
  pbind (predicate cq f) fun p =>
  pbind (tuple2 (tag "=>".toList) whitespace) fun _ =>
  pbind (linear_expression f) fun c =>
  pbind (tag ";".toList) fun _ =>
  pmap (opt whitespace) fun _ => Statement.mk p c

/-- `document` (lines 258-262): `many0(statement)`.  The fuel for both the
`many0` loop and the expression nesting is `input.length + 1`, which bounds
both (each loop iteration and each nesting level consumes input). -/
def document (cq : P (GqlDefinition String String String)) : P Document := fun i =>
  match many0F (statement cq (i.length + 1)) (i.length + 1) i with
  | none => none
  | some (r, sts) => some (r, Document.mk sts)

/-- On success the remainder is no longer than the input (every nom parser
over `&str` returns a suffix of its input, so this holds for all of them;
for the abstracted external parser it becomes a hypothesis). -/
def ConsumesLe {α : Type} (p : P α) : Prop :=
  ∀ i r a, p i = some (r, a) → r.length ≤ i.length

/-- On success the remainder is strictly shorter: the parser consumed at
least one character. -/
def ConsumesLt {α : Type} (p : P α) : Prop :=
  ∀ i r a, p i = some (r, a) → r.length < i.length

lemma consumesLe_of_lt {α : Type} {p : P α} (h : ConsumesLt p) : ConsumesLe p :=
  fun i r a hp => le_of_lt (h i r a hp)

lemma consumesLe_ppure {α : Type} (a : α) : ConsumesLe (ppure a) := by
  intro i r b h
  simp only [ppure, Option.some.injEq, Prod.mk.injEq] at h
  rw [← h.1]

lemma consumesLe_pbind {α β : Type} {p : P α} {f : α → P β} (hp : ConsumesLe p)
    (hf : ∀ a, ConsumesLe (f a)) : ConsumesLe (pbind p f) := by
  intro i r b h
  simp only [pbind] at h
  cases hpi : p i with
  | none => rw [hpi] at h; exact absurd h (by simp)
  | some x =>
    obtain ⟨i1, a⟩ := x
    rw [hpi] at h
    exact le_trans (hf a i1 r b h) (hp i i1 a hpi)

lemma consumesLt_pbind_right {α β : Type} {p : P α} {f : α → P β} (hp : ConsumesLe p)
    (hf : ∀ a, ConsumesLt (f a)) : ConsumesLt (pbind p f) := by
  intro i r b h
  simp only [pbind] at h
  cases hpi : p i with
  | none => rw [hpi] at h; exact absurd h (by simp)
  | some x =>
    obtain ⟨i1, a⟩ := x
    rw [hpi] at h
    exact lt_of_lt_of_le (hf a i1 r b h) (hp i i1 a hpi)

lemma consumesLt_pbind_left {α β : Type} {p : P α} {f : α → P β} (hp : ConsumesLt p)
    (hf : ∀ a, ConsumesLe (f a)) : ConsumesLt (pbind p f) := by
  intro i r b h
  simp only [pbind] at h
  cases hpi : p i with
  | none => rw [hpi] at h; exact absurd h (by simp)
  | some x =>
    obtain ⟨i1, a⟩ := x
    rw [hpi] at h
    exact lt_of_le_of_lt (hf a i1 r b h) (hp i i1 a hpi)

lemma consumesLe_pmap {α β : Type} {p : P α} (hp : ConsumesLe p) (g : α → β) :
    ConsumesLe (pmap p g) :=
  consumesLe_pbind hp (fun a => consumesLe_ppure (g a))

lemma consumesLt_pmap {α β : Type} {p : P α} (hp : ConsumesLt p) (g : α → β) :
    ConsumesLt (pmap p g) :=
  consumesLt_pbind_left hp (fun a => consumesLe_ppure (g a))

lemma consumesLe_alt2 {α : Type} {p q : P α} (hp : ConsumesLe p) (hq : ConsumesLe q) :
    ConsumesLe (alt2 p q) := by
  intro i r a h
  cases hpi : p i with
  | none =>
    simp only [alt2, hpi] at h
    exact hq i r a h
  | some x =>
    simp only [alt2, hpi, Option.some.injEq] at h
    subst h
    exact hp i r a hpi

lemma consumesLe_alt3 {α : Type} {p q r : P α} (hp : ConsumesLe p) (hq : ConsumesLe q)
    (hr : ConsumesLe r) : ConsumesLe (alt3 p q r) :=
  consumesLe_alt2 hp (consumesLe_alt2 hq hr)

lemma consumesLe_alt4 {α : Type} {p q r s : P α} (hp : ConsumesLe p) (hq : ConsumesLe q)
    (hr : ConsumesLe r) (hs : ConsumesLe s) : ConsumesLe (alt4 p q r s) :=
  consumesLe_alt2 hp (consumesLe_alt2 hq (consumesLe_alt2 hr hs))

lemma consumesLe_opt {α : Type} {p : P α} (hp : ConsumesLe p) : ConsumesLe (opt p) :=
  consumesLe_alt2 (consumesLe_pmap hp _) (consumesLe_ppure _)

lemma consumesLe_tuple2 {α β : Type} {p : P α} {q : P β} (hp : ConsumesLe p)
    (hq : ConsumesLe q) : ConsumesLe (tuple2 p q) :=
  consumesLe_pbind hp (fun a => consumesLe_pmap hq _)

lemma consumesLt_tuple2_left {α β : Type} {p : P α} {q : P β} (hp : ConsumesLt p)
    (hq : ConsumesLe q) : ConsumesLt (tuple2 p q) :=
  consumesLt_pbind_left hp (fun a => consumesLe_pmap hq _)

lemma consumesLe_preceded {α β : Type} {p : P α} {q : P β} (hp : ConsumesLe p)
    (hq : ConsumesLe q) : ConsumesLe (preceded p q) :=
  consumesLe_pbind hp (fun _ => hq)

lemma consumesLe_terminated {α β : Type} {p : P α} {q : P β} (hp : ConsumesLe p)
    (hq : ConsumesLe q) : ConsumesLe (terminated p q) :=
  consumesLe_pbind hp (fun a => consumesLe_pmap hq _)

lemma consumesLe_surrounded_by {α β : Type} {outer : P α} {inner : P β}
    (ho : ConsumesLe outer) (hi : ConsumesLe inner) : ConsumesLe (surrounded_by outer inner) :=
  consumesLe_pbind ho (fun _ => consumesLe_pbind hi (fun r => consumesLe_pmap ho _))

lemma consumesLe_tag (t : List Char) : ConsumesLe (tag t) := by
  intro i r a h
  by_cases hpre : t.isPrefixOf i = true
  · simp only [tag, if_pos hpre, Option.some.injEq, Prod.mk.injEq] at h
    rw [← h.1]
    simp only [List.length_drop]
    omega
  · simp [tag, hpre] at h

lemma consumesLt_tag (t : List Char) (ht : t ≠ []) : ConsumesLt (tag t) := by
  intro i r a h
  by_cases hpre : t.isPrefixOf i = true
  · simp only [tag, if_pos hpre, Option.some.injEq, Prod.mk.injEq] at h
    have hlen : t.length ≤ i.length :=
      (List.isPrefixOf_iff_prefix.mp hpre).length_le
    have hpos : 0 < t.length := List.length_pos.mpr ht
    rw [← h.1]
    simp only [List.length_drop]
    omega
  · simp [tag, hpre] at h

lemma consumesLt_take_while1 (f : Char → Bool) : ConsumesLt (take_while1 f) := by
  intro i r a h
  by_cases hempty : i.takeWhile f = []
  · simp [take_while1, hempty] at h
  · simp only [take_while1, if_neg hempty, Option.some.injEq, Prod.mk.injEq] at h
    have hsplit : i.takeWhile f ++ i.dropWhile f = i := List.takeWhile_append_dropWhile f i
    have hlen := congrArg List.length hsplit
    simp only [List.length_append] at hlen
    have hpos : 0 < (i.takeWhile f).length := List.length_pos.mpr hempty
    rw [← h.1]
    omega

lemma consumesLt_whitespace : ConsumesLt whitespace := consumesLt_take_while1 _

lemma consumesLe_whitespace : ConsumesLe whitespace := consumesLe_of_lt consumesLt_whitespace

lemma consumesLe_recognize {α : Type} {p : P α} (hp : ConsumesLe p) :
    ConsumesLe (recognize p) := by
  intro i r a h
  simp only [recognize] at h
  cases hpi : p i with
  | none => rw [hpi] at h; exact absurd h (by simp)
  | some x =>
    obtain ⟨r1, b⟩ := x
    rw [hpi] at h
    simp only [Option.some.injEq, Prod.mk.injEq] at h
    rw [← h.1]
    exact hp i r1 b hpi

lemma consumesLe_many0F {α : Type} {p : P α} (hp : ConsumesLe p) :
    ∀ fuel, ConsumesLe (many0F p fuel) := by
  intro fuel
  induction fuel with
  | zero => intro i r a h; simp [many0F] at h
  | succ fuel ih =>
    intro i r a h
    simp only [many0F] at h
    cases hpi : p i with
    | none =>
      rw [hpi] at h
      simp only [Option.some.injEq, Prod.mk.injEq] at h
      rw [← h.1]
    | some x =>
      obtain ⟨i1, b⟩ := x
      simp only [hpi] at h
      by_cases heq : i1 = i
      · rw [if_pos heq] at h; exact absurd h (by simp)
      · rw [if_neg heq] at h
        cases hm : many0F p fuel i1 with
        | none => rw [hm] at h; exact absurd h (by simp)
        | some y =>
          obtain ⟨r1, tl⟩ := y
          simp only [hm, Option.some.injEq, Prod.mk.injEq] at h
          rw [← h.1]
          exact le_trans (ih i1 r1 tl hm) (hp i i1 b hpi)

lemma consumesLe_many0 {α : Type} {p : P α} (hp : ConsumesLe p) : ConsumesLe (many0 p) :=
  fun i r a h => consumesLe_many0F hp (i.length + 1) i r a h

/-- With a strictly consuming step, `many0F` with fuel above the input
length always succeeds (the loop ends at the first failing step). -/
lemma many0F_isSome {α : Type} {p : P α} (hp : ConsumesLt p) :
    ∀ fuel i, i.length < fuel → (many0F p fuel i).isSome = true := by
  intro fuel
  induction fuel with
  | zero => intro i h; exact absurd h (Nat.not_lt_zero _)
  | succ fuel ih =>
    intro i hlen
    cases hpi : p i with
    | none => simp [many0F, hpi]
    | some x =>
      obtain ⟨i1, a⟩ := x
      have hlt := hp i i1 a hpi
      have hne : ¬ i1 = i := fun he => by rw [he] at hlt; exact lt_irrefl _ hlt
      simp only [many0F, hpi]
      rw [if_neg hne]
      have hrec := ih i1 (by omega)
      cases hm : many0F p fuel i1 with
      | none => rw [hm] at hrec; simp at hrec
      | some y =>
        obtain ⟨r, tl⟩ := y
        simp [hm]

lemma consumesLe_int : ConsumesLe int := by
  apply consumesLe_pbind (consumesLe_opt (consumesLe_tag _))
  intro neg
  apply consumesLe_pbind (consumesLe_of_lt (consumesLt_take_while1 _))
  intro nums i r a h
  cases hv : parseBigInt nums with
  | none => simp [hv] at h
  | some v =>
    simp only [hv, Option.some.injEq, Prod.mk.injEq] at h
    rw [← h.1]

lemma consumesLe_const_bool : ConsumesLe const_bool :=
  consumesLe_alt2 (consumesLe_pmap (consumesLe_tag _) _) (consumesLe_pmap (consumesLe_tag _) _)

lemma consumesLe_variable : ConsumesLe variable_ :=
  consumesLe_recognize (consumesLe_tuple2 (consumesLe_tag _)
    (consumesLe_tuple2 (consumesLe_alt2 (consumesLe_of_lt (consumesLt_take_while1 _))
      (consumesLe_tag _))
      (consumesLe_many0 (consumesLe_alt2 (consumesLe_of_lt (consumesLt_take_while1 _))
        (consumesLe_tag _)))))

lemma consumesLe_binary_operator {α : Type} (t : List Char) (op : α) :
    ConsumesLe (binary_operator t op) :=
  consumesLe_pmap (consumesLe_tag t) _

lemma consumesLe_any_linear_binary_operator : ConsumesLe any_linear_binary_operator :=
  consumesLe_alt4 (consumesLe_binary_operator _ _) (consumesLe_binary_operator _ _)
    (consumesLe_binary_operator _ _) (consumesLe_binary_operator _ _)

lemma consumesLe_any_boolean_operator : ConsumesLe any_boolean_operator :=
  consumesLe_alt2 (consumesLe_binary_operator _ _) (consumesLe_binary_operator _ _)

lemma consumesLe_any_comparison_operator : ConsumesLe any_comparison_operator :=
  consumesLe_alt2 (consumesLe_binary_operator _ _)
  (consumesLe_alt2 (consumesLe_binary_operator _ _)
  (consumesLe_alt2 (consumesLe_binary_operator _ _)
  (consumesLe_alt2 (consumesLe_binary_operator _ _)
  (consumesLe_alt2 (consumesLe_binary_operator _ _) (consumesLe_binary_operator _ _)))))

lemma consumesLe_parenthesized {α : Type} {inner : P α} (hi : ConsumesLe inner) :
    ConsumesLe (parenthesized inner) :=
  consumesLe_preceded (consumesLe_tuple2 (consumesLe_tag _) (consumesLe_opt consumesLe_whitespace))
    (consumesLe_terminated hi
      (consumesLe_tuple2 (consumesLe_opt consumesLe_whitespace) (consumesLe_tag _)))

lemma consumesLe_linear_expression : ∀ f, ConsumesLe (linear_expression f) := by
  intro f
  induction f with
  | zero => intro i r a h; simp [linear_expression] at h
  | succ f ih =>
    have hleaf : ConsumesLe (linear_expression_leaf (linear_expression f)) :=
      consumesLe_alt3 (consumesLe_parenthesized ih) (consumesLe_pmap consumesLe_int _)
        (consumesLe_pmap consumesLe_variable _)
    rw [linear_expression]
    apply consumesLe_pbind hleaf
    intro first
    apply consumesLe_pbind (consumesLe_many0 (consumesLe_tuple2
      (consumesLe_surrounded_by consumesLe_whitespace consumesLe_any_linear_binary_operator)
      hleaf))
    intro ops i r a h
    cases hre : linear_regroup first ops with
    | mk res pend =>
      cases pend with
      | nil =>
        simp only [hre, Option.some.injEq, Prod.mk.injEq] at h
        rw [← h.1]
      | cons x xs => simp [hre] at h

lemma consumesLe_comparison (f : Nat) : ConsumesLe (comparison f) :=
  consumesLe_pbind (consumesLe_linear_expression f) (fun lhs =>
    consumesLe_pbind (consumesLe_surrounded_by (consumesLe_opt consumesLe_whitespace)
      consumesLe_any_comparison_operator) (fun op =>
        consumesLe_pmap (consumesLe_linear_expression f) _))

lemma consumesLe_condition_leaf {inner : P Condition} (hi : ConsumesLe inner) (f : Nat) :
    ConsumesLe (condition_leaf inner f) :=
  consumesLe_alt4 (consumesLe_parenthesized hi) (consumesLe_pmap (consumesLe_comparison f) _)
    (consumesLe_pmap consumesLe_variable _) (consumesLe_pmap consumesLe_const_bool _)

lemma consumesLe_condition : ∀ f, ConsumesLe (condition f) := by
  intro f
  induction f with
  | zero => intro i r a h; simp [condition] at h
  | succ f ih =>
    rw [condition]
    apply consumesLe_pbind (consumesLe_condition_leaf ih (f + 1))
    intro first
    apply consumesLe_pmap (consumesLe_many0 (consumesLe_tuple2
      (consumesLe_surrounded_by consumesLe_whitespace consumesLe_any_boolean_operator)
      (consumesLe_condition_leaf ih (f + 1))))

lemma consumesLe_where_clause (f : Nat) : ConsumesLe (where_clause f) :=
  consumesLe_pmap (consumesLe_preceded
    (consumesLe_tuple2 (consumesLe_tag _) consumesLe_whitespace)
    (consumesLe_condition f)) _

lemma consumesLe_graphql_query {cq : P (GqlDefinition String String String)}
    (hcq : ConsumesLe cq) : ConsumesLe (graphql_query cq) := by
  intro i r a h
  simp only [graphql_query] at h
  cases hc : cq i with
  | none => rw [hc] at h; exact absurd h (by simp)
  | some x =>
    obtain ⟨rest, d⟩ := x
    simp only [hc] at h
    cases hd : graphql_adapt d with
    | none => rw [hd] at h; exact absurd h (by simp)
    | some item =>
      simp only [hd, Option.some.injEq, Prod.mk.injEq] at h
      rw [← h.1]
      exact hcq i rest d hc

lemma consumesLe_predicate {cq : P (GqlDefinition String String String)}
    (hcq : ConsumesLe cq) (f : Nat) : ConsumesLe (predicate cq f) :=
  consumesLe_pbind (consumesLe_opt consumesLe_whitespace) (fun _ =>
    consumesLe_pbind (consumesLe_graphql_query hcq) (fun g =>
      consumesLe_pbind (consumesLe_opt consumesLe_whitespace) (fun _ =>
        consumesLe_pbind (consumesLe_opt (consumesLe_terminated (consumesLe_where_clause f)
          consumesLe_whitespace)) (fun w =>
            consumesLe_pmap (consumesLe_opt consumesLe_whitespace) _))))

/-- A successful `statement` always consumes input (`=>` alone accounts for
it), so nom's `many0(statement)` loop always terminates with `Ok`. -/
lemma consumesLt_statement {cq : P (GqlDefinition String String String)}
    (hcq : ConsumesLe cq) (f : Nat) : ConsumesLt (statement cq f) := by
  apply consumesLt_pbind_right (consumesLe_predicate hcq f)
  intro p
  apply consumesLt_pbind_left (consumesLt_tuple2_left
    (consumesLt_tag ("=>".toList) (by decide)) consumesLe_whitespace)
  intro u
  apply consumesLe_pbind (consumesLe_linear_expression f)
  intro c
  apply consumesLe_pbind (consumesLe_tag _)
  intro s
  exact consumesLe_pmap (consumesLe_opt consumesLe_whitespace) _

lemma collapsedB_of_rankTop_zero {e : LinearExpression} (h : rankTop e = 0) :
    collapsedB e = true := by
  cases e with
  | Const v => rfl
  | Variable n => rfl
  | BinaryExpression l op r => simp [rankTop] at h

/-- C1: for every flat operand list produced by the leaf/operator loop of
`linear_expression` (a leading leaf and a list of (operator, leaf) pairs;
leaves are atoms from the regrouping's viewpoint), the four regrouping
passes in the fixed order `*`, `/`, `+`, `-` yield a tree in which every
`*`/`/` node binds tighter than every `+`/`-` node and no node carries its
own operator in its right child (runs of equal operators lean left); a run
of one repeated operator is exactly the left fold, and in particular the
input `"7 - 5 - 2"` parses to the tree `(7 - 5) - 2`. -/
theorem C1_regroup_precedence (first : LinearExpression)
    (ops : List (AnyLinearOperator × LinearExpression))
    (h1 : rankTop first = 0) (h2 : ∀ p ∈ ops, rankTop p.2 = 0) :
    collapsedB (linear_regroup first ops).1 = true ∧
    (∀ k : AnyLinearOperator, (∀ p ∈ ops, p.1 = k) →
      (linear_regroup first ops).1 =
        ops.foldl (fun acc p => LinearExpression.BinaryExpression acc p.1 p.2) first) ∧
    linear_expression 10 ("7 - 5 - 2".toList) =
      some ([], LinearExpression.BinaryExpression (LinearExpression.BinaryExpression
        (LinearExpression.Const 7) AnyLinearOperator.Sub (LinearExpression.Const 5))
        AnyLinearOperator.Sub (LinearExpression.Const 2)) := by
  refine ⟨?_, ?_, by decide⟩
  · apply linear_regroup_collapsed
    exact ⟨collapsedB_of_rankTop_zero h1, by rw [h1], fun p hp =>
      ⟨Nat.zero_le _, collapsedB_of_rankTop_zero (h2 p hp), by rw [h2 p hp]⟩⟩
  · intro k hk
    rw [linear_regroup_uniform first ops k hk]

/-- C1 witness: the regrouping of the operand list of `7 - 5 - 2` is
precedence-correct and equal to the left-associated tree `(7 - 5) - 2`. -/
theorem C1_witness :
    collapsedB (linear_regroup (LinearExpression.Const 7)
      [(AnyLinearOperator.Sub, LinearExpression.Const 5),
       (AnyLinearOperator.Sub, LinearExpression.Const 2)]).1 = true ∧
    (linear_regroup (LinearExpression.Const 7)
      [(AnyLinearOperator.Sub, LinearExpression.Const 5),
       (AnyLinearOperator.Sub, LinearExpression.Const 2)]).1 =
      LinearExpression.BinaryExpression (LinearExpression.BinaryExpression
        (LinearExpression.Const 7) AnyLinearOperator.Sub (LinearExpression.Const 5))
        AnyLinearOperator.Sub (LinearExpression.Const 2) := by
  have h := C1_regroup_precedence (LinearExpression.Const 7)
    [(AnyLinearOperator.Sub, LinearExpression.Const 5),
     (AnyLinearOperator.Sub, LinearExpression.Const 2)] (by decide) (by decide)
  refine ⟨h.1, ?_⟩
  rw [h.2.1 AnyLinearOperator.Sub (by decide)]
  decide

/-- C2, refuted on the code: a run mixing `/` with `*` (or `-` with `+`)
does not associate left to right.  The `Mul` pass runs before the `Div`
pass and folds `* 2` into the pending `Div` pair, so `"8 / 4 * 2"` parses
to `8 / (4 * 2)` — not `(8 / 4) * 2` as the claim states — and likewise
`"10 - 5 + 2"` parses to `10 - (5 + 2)`, which evaluates to `3` instead of
the conventional `7`. -/
theorem C2_mixed_runs_associate_right :
    linear_expression 10 ("8 / 4 * 2".toList) =
      some ([], LinearExpression.BinaryExpression (LinearExpression.Const 8)
        AnyLinearOperator.Div (LinearExpression.BinaryExpression (LinearExpression.Const 4)
          AnyLinearOperator.Mul (LinearExpression.Const 2))) ∧
    linear_expression 11 ("10 - 5 + 2".toList) =
      some ([], LinearExpression.BinaryExpression (LinearExpression.Const 10)
        AnyLinearOperator.Sub (LinearExpression.BinaryExpression (LinearExpression.Const 5)
          AnyLinearOperator.Add (LinearExpression.Const 2))) ∧
    linear_expression 10 ("8 / 4 * 2".toList) ≠
      some ([], LinearExpression.BinaryExpression (LinearExpression.BinaryExpression
        (LinearExpression.Const 8) AnyLinearOperator.Div (LinearExpression.Const 4))
        AnyLinearOperator.Mul (LinearExpression.Const 2)) ∧
    linear_expression 11 ("10 - 5 + 2".toList) ≠
      some ([], LinearExpression.BinaryExpression (LinearExpression.BinaryExpression
        (LinearExpression.Const 10) AnyLinearOperator.Sub (LinearExpression.Const 5))
        AnyLinearOperator.Add (LinearExpression.Const 2)) :=
  ⟨by decide, by decide, by decide, by decide⟩

/-- C3: `condition` folds its (boolean operator, leaf) pairs strictly left
to right into a chain of binary nodes with no precedence regrouping, so
`||` and `&&` have equal precedence and left associativity:
`"$a || $b && $c"` parses to `($a || $b) && $c`, not `$a || ($b && $c)`. -/
theorem C3_condition_left_fold :
    condition 15 ("$a || $b && $c".toList) =
      some ([], Condition.Boolean (Condition.Boolean (Condition.Variable "$a")
        AnyBooleanOp.Or (Condition.Variable "$b")) AnyBooleanOp.And (Condition.Variable "$c")) ∧
    condition 15 ("$a || $b && $c".toList) ≠
      some ([], Condition.Boolean (Condition.Variable "$a") AnyBooleanOp.Or
        (Condition.Boolean (Condition.Variable "$b") AnyBooleanOp.And
          (Condition.Variable "$c"))) :=
  ⟨by decide, by decide⟩

/-- C6, refuted on the code: whitespace around a binary arithmetic operator
in `linear_expression` (and a boolean operator in `condition`) is NOT
optional — `surrounded_by(whitespace, …)` requires at least one whitespace
character on each side.  `"1+2"` parses as the leaf `1` with `"+2"` left
unconsumed, not as the binary node `1 + 2` with no remaining input, and
`"true||false"` parses as the constant `true` with `"||false"` left. -/
theorem C6_counterexample :
    linear_expression 9 ("1+2".toList) = some ("+2".toList, LinearExpression.Const 1) ∧
    linear_expression 9 ("1+2".toList) ≠
      some ([], LinearExpression.BinaryExpression (LinearExpression.Const 1)
        AnyLinearOperator.Add (LinearExpression.Const 2)) ∧
    condition 12 ("true||false".toList) = some ("||false".toList, Condition.Const true) :=
  ⟨by decide, by decide, by decide⟩

/-- C6 amended: whitespace around binary arithmetic and boolean operators
is mandatory (one or more of space/tab/CR/LF on each side): `"1 + 2"` and
`"true || false"` parse fully as the binary nodes, while `"1+2"` stops at
the leaf (see `C6_counterexample`); only the comparison operator takes
optional surrounding whitespace, so `"1>=2"` parses fully. -/
theorem C6_amended_whitespace_mandatory :
    linear_expression 9 ("1 + 2".toList) =
      some ([], LinearExpression.BinaryExpression (LinearExpression.Const 1)
        AnyLinearOperator.Add (LinearExpression.Const 2)) ∧
    condition 14 ("true || false".toList) =
      some ([], Condition.Boolean (Condition.Const true) AnyBooleanOp.Or
        (Condition.Const false)) ∧
    comparison 6 ("1>=2".toList) =
      some ([], (LinearExpression.Const 1, AnyComparison.Ge, LinearExpression.Const 2)) :=
  ⟨by decide, by decide, by decide⟩

/-- C8: the comparison operator alternatives are tried in the fixed order
`== != >= <= > <` with optional whitespace on both sides, so an input
starting with `">="` (or `"<="`) always yields `Ge` (resp. `Le`) — the
two-character operators are never shadowed by their one-character prefixes
`>`/`<` — and a full comparison around `>=` parses as `Ge`. -/
theorem C8_comparison_operator_order :
    (∀ rest : Input,
      any_comparison_operator ('>' :: '=' :: rest) = some (rest, AnyComparison.Ge)) ∧
    (∀ rest : Input,
      any_comparison_operator ('<' :: '=' :: rest) = some (rest, AnyComparison.Le)) ∧
    comparison 8 ("1 >= 2".toList) =
      some ([], (LinearExpression.Const 1, AnyComparison.Ge, LinearExpression.Const 2)) := by
  refine ⟨fun rest => ?_, fun rest => ?_, by decide⟩
  · simp [any_comparison_operator, alt2, binary_operator, pmap, pbind, ppure, tag,
      List.isPrefixOf_cons₂]
  · simp [any_comparison_operator, alt2, binary_operator, pmap, pbind, ppure, tag,
      List.isPrefixOf_cons₂]

/-- C9: `document` is `many0(statement)`: it parses statements as long as
they match, then returns successfully with the parsed statements and the
unconsumed remainder — a trailing fragment that is not a valid statement
never produces an error.  The external `consume_query` is any parser that
does not lengthen its input (every real parser returns a suffix). -/
theorem C9_document_never_errors (cq : P (GqlDefinition String String String))
    (hcq : ConsumesLe cq) (i : Input) : (document cq i).isSome = true := by
  have hstrict := consumesLt_statement hcq (i.length + 1)
  have h := many0F_isSome hstrict (i.length + 1) i (Nat.lt_succ_self _)
  simp only [document]
  cases hm : many0F (statement cq (i.length + 1)) (i.length + 1) i with
  | none => rw [hm] at h; simp at h
  | some x =>
    obtain ⟨r, sts⟩ := x
    simp [hm]

/-- C9 witness: with an external parser that rejects everything, `document`
still succeeds on a nonsense input (returning it as the remainder). -/
theorem C9_witness :
    (document (fun _ => none) ("this is not a statement".toList)).isSome = true :=
  C9_document_never_errors (fun _ => none) (fun i r a h => by simp at h) _

/-- C4: the adapter around the externally parsed definition succeeds exactly
when the definition is an anonymous query operation with no variable
definitions and exactly one of the two lists is non-empty (some directives
and no selection items, or some selection items and no directives); named
queries, variable definitions, non-query definitions, both lists empty and
both lists non-empty are all rejected. -/
theorem C4_adapter_acceptance {D S V : Type} (d : GqlDefinition D S V) :
    (graphql_adapt d).isSome = true ↔
      ∃ q, d = GqlDefinition.OperationQuery q ∧ q.name = none ∧
        q.variable_definitions = [] ∧
        ((q.directives ≠ [] ∧ q.selection_set_items = []) ∨
          (q.directives = [] ∧ q.selection_set_items ≠ [])) := by
  cases d with
  | OtherDefinition => simp [graphql_adapt]
  | OperationQuery q =>
    obtain ⟨nm, vars, dirs, sels⟩ := q
    cases nm with
    | some s => simp [graphql_adapt]
    | none =>
      cases vars with
      | cons v vs => simp [graphql_adapt]
      | nil =>
        simp only [graphql_adapt, Option.isSome_none, Bool.false_eq_true, if_false,
          List.length_nil, ne_eq, not_true_eq_false, ite_false]
        cases hd : dirs.getLast? with
        | none =>
          have hdirs : dirs = [] := (getLast?_eq_none_iff dirs).mp hd
          cases hs : sels.getLast? with
          | none =>
            have hsels : sels = [] := (getLast?_eq_none_iff sels).mp hs
            subst hdirs; subst hsels
            simp
          | some s =>
            have hsels : sels ≠ [] := by
              intro he
              rw [he] at hs
              simp at hs
            subst hdirs
            simp [hsels]
        | some dct =>
          have hdirs : dirs ≠ [] := by
            intro he
            rw [he] at hd
            simp at hd
          cases hs : sels.getLast? with
          | none =>
            have hsels : sels = [] := (getLast?_eq_none_iff sels).mp hs
            subst hsels
            simp [hdirs]
          | some s =>
            have hsels : sels ≠ [] := by
              intro he
              rw [he] at hs
              simp at hs
            simp [hdirs, hsels]

/-- C5: when the surviving list has more than one entry the adapter still
succeeds and keeps only its last entry (`pop()`), silently discarding the
earlier ones. -/
theorem C5_adapter_keeps_last {D S V : Type} :
    (∀ (q : GqlQuery D S V) (l : List S) (x : S),
      q.name = none → q.variable_definitions = [] → q.directives = [] →
      l ≠ [] → q.selection_set_items = l ++ [x] →
      graphql_adapt (GqlDefinition.OperationQuery q) =
        some (TopLevelQueryItem.Selection x)) ∧
    (∀ (q : GqlQuery D S V) (m : List D) (y : D),
      q.name = none → q.variable_definitions = [] → q.selection_set_items = [] →
      m ≠ [] → q.directives = m ++ [y] →
      graphql_adapt (GqlDefinition.OperationQuery q) =
        some (TopLevelQueryItem.Directive y)) := by
  constructor
  · intro q l x hn hv hd hl hs
    simp [graphql_adapt, hn, hv, hd, hs, List.getLast?_concat]
  · intro q m y hn hv hs hm hd
    simp [graphql_adapt, hn, hv, hd, hs, List.getLast?_concat]

/-- C5 witness: with two selection items only the second is kept, and with
two directives only the second is kept. -/
theorem C5_witness :
    graphql_adapt (GqlDefinition.OperationQuery
      (⟨none, [], [], ["s1", "s2"]⟩ : GqlQuery String String String)) =
      some (TopLevelQueryItem.Selection "s2") ∧
    graphql_adapt (GqlDefinition.OperationQuery
      (⟨none, [], ["d1", "d2"], []⟩ : GqlQuery String String String)) =
      some (TopLevelQueryItem.Directive "d2") :=
  ⟨(C5_adapter_keeps_last (D := String) (S := String) (V := String)).1
      _ ["s1"] "s2" rfl rfl rfl (List.cons_ne_nil _ _) rfl,
    (C5_adapter_keeps_last (D := String) (S := String) (V := String)).2
      _ ["d1"] "d2" rfl rfl rfl (List.cons_ne_nil _ _) rfl⟩

lemma digit1_spec {i r nums : Input} (h : digit1 i = some (r, nums)) :
    nums ≠ [] ∧ nums.all Char.isDigit = true ∧ nums ++ r = i := by
  by_cases hempty : i.takeWhile Char.isDigit = []
  · simp [digit1, take_while1, hempty] at h
  · simp only [digit1, take_while1, if_neg hempty, Option.some.injEq, Prod.mk.injEq] at h
    obtain ⟨hr, hn⟩ := h
    subst hr
    subst hn
    refine ⟨hempty, ?_, List.takeWhile_append_dropWhile _ _⟩
    rw [List.all_eq_true]
    intro c hc
    exact List.mem_takeWhile_imp hc

lemma parseBigInt_of_digits {nums : Input} (h1 : nums ≠ [])
    (h2 : nums.all Char.isDigit = true) :
    parseBigInt nums = some (digitsVal nums : Int) := by
  simp [parseBigInt, h1, h2]

lemma opt_tag_single_cases (c : Char) (i : Input) :
    (∃ t, i = c :: t ∧ opt (tag [c]) i = some (t, some [c])) ∨
    opt (tag [c]) i = some (i, none) := by
  cases i with
  | nil =>
    right
    rfl
  | cons d t =>
    by_cases hc : c = d
    · subst hc
      left
      exact ⟨t, rfl, by simp [opt, alt2, pmap, pbind, ppure, tag, List.isPrefixOf_cons₂]⟩
    · right
      have hbeq : (c == d) = false := by simp [hc]
      simp [opt, alt2, pmap, pbind, ppure, tag, List.isPrefixOf_cons₂, hbeq]

/-- C10: `int` is total and never panics.  The `unwrap` after `parse` is
unreachable (`intPanics` is constantly `false`): whenever the optional `-`
and the digit run have matched, the run is a non-empty all-ASCII-digit
string that arbitrary-precision integer parsing accepts; and on success the
result is the value of the digit run, negated exactly when a leading `-`
was matched. -/
theorem C10_int_never_panics :
    (∀ i : Input, intPanics i = false) ∧
    (∀ (i r : Input) (v : Int), int i = some (r, v) →
      ∃ ds : Input, ds ≠ [] ∧ ds.all Char.isDigit = true ∧
        ((i = ds ++ r ∧ v = (digitsVal ds : Int)) ∨
         (i = '-' :: (ds ++ r) ∧ v = (digitsVal ds : Int) * (-1)))) := by
  constructor
  · intro i
    rcases opt_tag_single_cases '-' i with ⟨t, hit, hopt⟩ | hopt
    · simp only [intPanics, pbind, hopt]
      cases hd : digit1 t with
      | none => rfl
      | some y =>
        obtain ⟨r1, nums⟩ := y
        obtain ⟨h1, h2, h3⟩ := digit1_spec hd
        simp [parseBigInt_of_digits h1 h2]
    · simp only [intPanics, pbind, hopt]
      cases hd : digit1 i with
      | none => rfl
      | some y =>
        obtain ⟨r1, nums⟩ := y
        obtain ⟨h1, h2, h3⟩ := digit1_spec hd
        simp [parseBigInt_of_digits h1 h2]
  · intro i r v h
    rcases opt_tag_single_cases '-' i with ⟨t, hit, hopt⟩ | hopt
    · simp only [int, pbind, hopt] at h
      cases hd : digit1 t with
      | none => simp [hd] at h
      | some y =>
        obtain ⟨r1, nums⟩ := y
        simp only [hd] at h
        obtain ⟨h1, h2, h3⟩ := digit1_spec hd
        simp only [parseBigInt_of_digits h1 h2, Option.isSome_some, if_true,
          Option.some.injEq, Prod.mk.injEq] at h
        obtain ⟨hr, hv⟩ := h
        refine ⟨nums, h1, h2, Or.inr ⟨?_, hv.symm⟩⟩
        rw [hit, ← h3, hr]
    · simp only [int, pbind, hopt] at h
      cases hd : digit1 i with
      | none => simp [hd] at h
      | some y =>
        obtain ⟨r1, nums⟩ := y
        simp only [hd] at h
        obtain ⟨h1, h2, h3⟩ := digit1_spec hd
        simp only [parseBigInt_of_digits h1 h2, Option.isSome_none, if_false,
          Option.some.injEq, Prod.mk.injEq] at h
        obtain ⟨hr, hv⟩ := h
        refine ⟨nums, h1, h2, Or.inl ⟨?_, hv.symm⟩⟩
        rw [← h3, hr]

/-- C10 witness: on `"-12x"` the panic branch is unreachable and `int`
yields `-12`, the digit run `12` negated by the leading minus, with `"x"`
remaining. -/
theorem C10_witness :
    intPanics ("-12x".toList) = false ∧
    ∃ ds : Input, ds ≠ [] ∧ ds.all Char.isDigit = true ∧
      (("-12x".toList = ds ++ ['x'] ∧ (-12 : Int) = (digitsVal ds : Int)) ∨
       ("-12x".toList = '-' :: (ds ++ ['x']) ∧
         (-12 : Int) = (digitsVal ds : Int) * (-1))) :=
  ⟨C10_int_never_panics.1 _,
    C10_int_never_panics.2 ("-12x".toList) ['x'] (-12) (by decide)⟩
